import Mathlib

/-!
Shallow embedding of the security-audit runner in `main.py` of the
Automated-auditing-tool-for-Unix-operating-systems repository.

The core (class `EnumerationFramework` plus `main`) is modelled as pure
functions over an explicit environment `Env` that captures the effects the
code performs: file-existence tests (`os.path.exists`), dynamic module
loading (`importlib`, which either yields a module object or raises), file
writes (`open`/`json.dump`), and the wall clock (`datetime.now`).

Python dictionaries are modelled as association lists with Python's
assignment semantics (`dinsert`: an existing key keeps its position and gets
the new value; a new key is appended).  JSON-like values (configuration
parameters, check payloads, the persisted report) are modelled by the
inductive type `JValue`.
-/

namespace Audit

/-- JSON-like structured values: parameters and payloads in the config and
in check results (`json` module values in the Python code). -/
inductive JValue where
  | null : JValue
  | bool : Bool → JValue
  | num : Int → JValue
  | str : String → JValue
  | arr : List JValue → JValue
  | obj : List (String × JValue) → JValue
deriving Repr

/-- One entry of the configuration's `tests` list.  `name` and `file` are
accessed with `test_config['name']` / `test_config['file']` (required);
`enabled` and `parameters` are accessed with `.get` (may be absent, hence
`Option`). -/
structure CheckSpec where
  name : String
  file : String
  enabled : Option Bool
  parameters : Option JValue
deriving Repr

/-- The parsed configuration document (`self.config`).  Every field the core
reads with `.get` is optional; the `tests` list itself is also optional
(`'tests' not in self.config` is a distinct condition). -/
structure RunConfig where
  tests_directory : Option String
  tests : Option (List CheckSpec)
  save_results : Option Bool
  output_file : Option String

/-- A dynamically loaded check module: whether it has a `run` attribute, and
the behaviour of calling `run(params)` — normal return (`Except.ok`) or a
raised exception carrying its stringified form `str(e)` (`Except.error`). -/
structure Module where
  hasRun : Bool
  run : JValue → Except String JValue

/-- The effect environment of one run: `os.path.exists`, module loading
(`none` models `load_test_module` returning `None` after an exception),
whether writing a given output path succeeds, and the clock used for
`datetime.now().isoformat()` timestamps. -/
structure Env where
  pathExists : String → Bool
  loadModule : String → Option Module
  writeOk : String → Bool
  now : String

/-- Value stored in `self.tests[name]`: `{'module': module, 'config': test_config}`. -/
structure LoadedCheck where
  module : Module
  config : CheckSpec

/-- One entry of `self.results`: a dict with keys `status`, `result`
(success only), `error` (error only), `timestamp`.  The two optional keys
are independent fields here because the invariant relating them to `status`
is exactly what has to be proved, not assumed. -/
structure CheckResult where
  status : String
  result : Option JValue
  error : Option String
  timestamp : String
deriving Repr

/-- `os.path.join(tests_dir, test_file)` for the relative paths the config uses. -/
def joinPath (dir file : String) : String := dir ++ "/" ++ file

/-- `test_config.get('enabled', False)` — truthiness of the enabled flag. -/
def isEnabled (s : CheckSpec) : Bool := s.enabled.getD false

/-- `config.get('parameters', {})`. -/
def getParameters (s : CheckSpec) : JValue := s.parameters.getD (JValue.obj [])

/-- `self.config.get('tests_directory', 'tests')`. -/
def testsDirectory (cfg : RunConfig) : String := cfg.tests_directory.getD "tests"

/-- `self.config.get('output_file', 'enumeration_results.json')`. -/
def outputFile (cfg : RunConfig) : String := cfg.output_file.getD "enumeration_results.json"

/-- `self.config.get('save_results', False)`. -/
def saveFlag (cfg : RunConfig) : Bool := cfg.save_results.getD false

/-- Python dict assignment `d[k] = v` on an association list: an existing
key keeps its insertion position and receives the new value, a fresh key is
appended at the end. -/
def dinsert (k : String) (v : α) : List (String × α) → List (String × α)
  | [] => [(k, v)]
  | (k', v') :: rest => if k' = k then (k, v) :: rest else (k', v') :: dinsert k v rest

/-- Python dict lookup `d[k]` (as an `Option`). -/
def alookup (k : String) : List (String × α) → Option α
  | [] => none
  | (k', v) :: rest => if k' = k then some v else alookup k rest

/-- The key sequence of a dict, in insertion order. -/
def keys (l : List (String × α)) : List String := l.map Prod.fst

/-- One iteration of the `for test_config in self.config['tests']` loop of
`discover_tests`, acting on the pair (current `self.tests`, list of indices
of specs for which `load_test_module` was called).  Structure of the source:
skip when disabled; skip when the joined path does not exist; otherwise
attempt the load (recorded in the load log) and keep the module only when
it loaded and has a `run` attribute. -/
def discoverStep (env : Env) (dir : String)
    (st : List (String × LoadedCheck) × List Nat) (is : Nat × CheckSpec) :
    List (String × LoadedCheck) × List Nat :=
  let s := is.2
  if isEnabled s then
    let path := joinPath dir s.file
    if env.pathExists path then
      let st' := (st.1, st.2 ++ [is.1])
      match env.loadModule path with
      | some m => if m.hasRun then (dinsert s.name ⟨m, s⟩ st'.1, st'.2) else st'
      | none => st'
    else st
  else st

/-- `discover_tests`: `none` models the early `return False` when
`'tests' not in self.config`; otherwise the loop over all entries, returning
the final `self.tests` together with the load log. -/
def discoverTests (env : Env) (cfg : RunConfig) :
    Option (List (String × LoadedCheck) × List Nat) :=
  match cfg.tests with
  | none => none
  | some specs => some (specs.enum.foldl (discoverStep env (testsDirectory cfg)) ([], []))

/-- The `self.tests` dict after discovery (empty when `tests` is absent). -/
def discoveredTests (env : Env) (cfg : RunConfig) : List (String × LoadedCheck) :=
  match discoverTests env cfg with
  | none => []
  | some (t, _) => t

/-- Indices of the config entries for which `load_test_module` was invoked. -/
def loadLog (env : Env) (cfg : RunConfig) : List Nat :=
  match discoverTests env cfg with
  | none => []
  | some (_, l) => l

/-- Body of `run_test` (minus the prints): call `module.run(params)` inside
`try`, and build the result dict recorded into `self.results[test_name]`. -/
def runTest (env : Env) (lc : LoadedCheck) : CheckResult :=
  match lc.module.run (getParameters lc.config) with
  | .ok v => ⟨"success", some v, none, env.now⟩
  | .error e => ⟨"error", none, some e, env.now⟩

/-- `run_all_tests`: iterate `self.tests` in order, recording
`self.results[test_name] = ...` for each. -/
def runAllTests (env : Env) (tests : List (String × LoadedCheck)) :
    List (String × CheckResult) :=
  tests.foldl (fun acc p => dinsert p.1 (runTest env p.2) acc) []

/-- `successful = sum(1 for r in self.results.values() if r['status'] == 'success')`. -/
def successCount (rs : List (String × CheckResult)) : Nat :=
  (rs.filter (fun p => p.2.status = "success")).length

/-- `failed = sum(1 for r in self.results.values() if r['status'] == 'error')`. -/
def errorCount (rs : List (String × CheckResult)) : Nat :=
  (rs.filter (fun p => p.2.status = "error")).length

/-- The JSON document `json.dump` produces for one result dict: the keys in
the literal order of `run_test` (`status`, then `result` on success /
`error` on error, then `timestamp`). -/
def encodeResult (r : CheckResult) : JValue :=
  JValue.obj ([("status", JValue.str r.status)]
    ++ (match r.result with | some v => [("result", v)] | none => [])
    ++ (match r.error with | some e => [("error", JValue.str e)] | none => [])
    ++ [("timestamp", JValue.str r.timestamp)])

/-- The JSON document `json.dump(self.results, f, indent=2)` writes. -/
def encodeResults (rs : List (String × CheckResult)) : JValue :=
  JValue.obj (rs.map (fun p => (p.1, encodeResult p.2)))

/-- Reading one persisted result entry back (`json.load` then interpreting
the fields of the entry). -/
def decodeResult (j : JValue) : Option CheckResult :=
  match j with
  | JValue.obj kvs =>
    match alookup "status" kvs, alookup "timestamp" kvs with
    | some (JValue.str st), some (JValue.str ts) =>
      some ⟨st, alookup "result" kvs,
        (match alookup "error" kvs with | some (JValue.str e) => some e | _ => none), ts⟩
    | _, _ => none
  | _ => none

/-- Reading the entries of the persisted report back, one per check name. -/
def decodeEntries : List (String × JValue) → Option (List (String × CheckResult))
  | [] => some []
  | (k, j) :: rest =>
    match decodeResult j, decodeEntries rest with
    | some r, some rs => some ((k, r) :: rs)
    | _, _ => none

/-- Reading the whole persisted report back into a result set. -/
def decodeResults (j : JValue) : Option (List (String × CheckResult)) :=
  match j with
  | JValue.obj kvs => decodeEntries kvs
  | _ => none

/-- `save_results`: write the serialized result set to the (defaulted)
output path; a write failure is caught (`except Exception`) and yields no
persisted document.  Returns the (path, document) actually persisted. -/
def saveResults (env : Env) (cfg : RunConfig) (rs : List (String × CheckResult)) :
    Option (String × JValue) :=
  if env.writeOk (outputFile cfg) then some (outputFile cfg, encodeResults rs) else none

/-- Tail of `print_summary`: persist only when `save_results` is truthy. -/
def persistedReport (env : Env) (cfg : RunConfig) (rs : List (String × CheckResult)) :
    Option (String × JValue) :=
  if saveFlag cfg then saveResults env cfg rs else none

/-- What one loop iteration of `discover_tests` contributes for a single
spec: `some (name, loaded check)` when the spec is enabled, its resolved
file exists, the module loads, and the module has a `run` attribute;
`none` when the entry is skipped for any of those reasons. -/
def loadEntry (env : Env) (dir : String) (s : CheckSpec) : Option (String × LoadedCheck) :=
  if isEnabled s && env.pathExists (joinPath dir s.file) then
    match env.loadModule (joinPath dir s.file) with
    | some m => if m.hasRun then some (s.name, ⟨m, s⟩) else none
    | none => none
  else none

/-- Whether `load_test_module` is called for a spec: enabled and the
resolved file exists. -/
def attemptedB (env : Env) (dir : String) (s : CheckSpec) : Bool :=
  isEnabled s && env.pathExists (joinPath dir s.file)

/-- The dict built by inserting, in order, the successfully loaded entries
of a spec list — the per-entry view of discovery that makes explicit that
every entry is processed independently of its neighbours. -/
def dictOfLoaded (env : Env) (dir : String) (specs : List CheckSpec) :
    List (String × LoadedCheck) :=
  (specs.filterMap (loadEntry env dir)).foldl (fun t p => dinsert p.1 p.2 t) []

/-- Key evolution of one Python dict assignment: an existing key is kept in
place, a fresh key is appended. -/
def insKey (ks : List String) (k : String) : List String :=
  if k ∈ ks then ks else ks ++ [k]

/-- The invariant of §3 of the spec for one result dict: the `result` key is
present exactly on `status = success` and the `error` key exactly on
`status = error`. -/
def wellFormedResult (r : CheckResult) : Prop :=
  (r.status = "success" ∧ r.result.isSome = true ∧ r.error = none)
    ∨ (r.status = "error" ∧ r.error.isSome = true ∧ r.result = none)

/-- The same environment with a different outcome for report writes;
used to state that the exit status ignores persistence failures. -/
def Env.withWriteOk (env : Env) (w : String → Bool) : Env :=
  { env with writeOk := w }

/-- The same environment with every loaded module's `run` behaviour
replaced (keeping which modules load and whether they have `run`); used to
state that the exit status ignores individual check outcomes. -/
def Env.withRuns (env : Env) (f : String → JValue → Except String JValue) : Env :=
  { env with loadModule := fun p => (env.loadModule p).map (fun m => ⟨m.hasRun, f p⟩) }

/-- Observable outcome of one `main` invocation: the process exit code, the
final `self.results`, and the persisted report if any. -/
structure RunOutcome where
  exitCode : Nat
  results : List (String × CheckResult)
  report : Option (String × JValue)
deriving Repr

/-- The part of `main` after a successfully loaded configuration:
`discover_tests` returning `False` (no `tests` key, or zero checks loaded)
exits 1; otherwise the run executes, reports, optionally persists, and the
process ends normally (exit 0). -/
def mainRunCfg (env : Env) (cfg : RunConfig) : RunOutcome :=
  match discoverTests env cfg with
  | none => ⟨1, [], none⟩
  | some (tests, _) =>
    if tests.isEmpty then ⟨1, [], none⟩
    else
      let rs := runAllTests env tests
      ⟨0, rs, persistedReport env cfg rs⟩

/-- `main`: `load_config` failing (file missing or unparseable, modelled by
`cfgOpt = none`) exits 1; otherwise the run proceeds on the loaded
configuration. -/
def mainRun (env : Env) (cfgOpt : Option RunConfig) : RunOutcome :=
  match cfgOpt with
  | none => ⟨1, [], none⟩
  | some cfg => mainRunCfg env cfg

/-! ### Concrete fixtures

A small concrete environment and configurations, used to evaluate the
pipeline on closed inputs. -/

/-- A module whose `run` returns the given value. -/
def mOk (v : JValue) : Module := ⟨true, fun _ => Except.ok v⟩

/-- A module whose `run` raises an exception stringifying to `"boom"`. -/
def mBoom : Module := ⟨true, fun _ => Except.error "boom"⟩

/-- A module whose `run` raises an exception whose stringification is the
empty string (as Python's `str(Exception())` is). -/
def mEmptyMsg : Module := ⟨true, fun _ => Except.error ""⟩

/-- A module whose `run` returns its parameters unchanged. -/
def mEcho : Module := ⟨true, fun p => Except.ok p⟩

/-- A module object lacking a `run` attribute. -/
def mNoRun : Module := ⟨false, fun _ => Except.ok JValue.null⟩

/-- Concrete environment: one missing file, a handful of loadable modules,
one file that exists but fails to load, writable output. -/
def wEnv : Env where
  pathExists := fun p => p != "tests/missing.py"
  loadModule := fun p =>
    if p = "tests/a.py" then some (mOk (JValue.str "A"))
    else if p = "tests/boom.py" then some mBoom
    else if p = "tests/emptymsg.py" then some mEmptyMsg
    else if p = "tests/echo.py" then some mEcho
    else if p = "tests/norun.py" then some mNoRun
    else none
  writeOk := fun _ => true
  now := "2024-01-01T00:00:00"

def specA : CheckSpec := ⟨"A", "a.py", some true, none⟩
def specBoom : CheckSpec := ⟨"Boom", "boom.py", some true, none⟩
def specEmptyMsg : CheckSpec := ⟨"EmptyMsg", "emptymsg.py", some true, none⟩
def specC : CheckSpec := ⟨"C", "echo.py", some true, none⟩
def specMissing : CheckSpec := ⟨"Missing", "missing.py", some true, none⟩
def specDisabled : CheckSpec := ⟨"Dis", "a.py", some false, none⟩
def specNoEnabled : CheckSpec := ⟨"NoEn", "a.py", none, none⟩
def specDup1 : CheckSpec := ⟨"Dup", "a.py", some true, none⟩
def specDup2 : CheckSpec := ⟨"Dup", "boom.py", some true, none⟩

/-- Three enabled checks, the middle one raising with an empty message. -/
def cfgEmptyMsg : RunConfig :=
  ⟨some "tests", some [specA, specEmptyMsg, specC], some false, none⟩

/-- Three enabled checks, the middle one raising `"boom"`. -/
def cfgBoom : RunConfig :=
  ⟨some "tests", some [specA, specBoom, specC], some false, none⟩

/-- One valid entry plus one whose file is missing. -/
def cfgMissing : RunConfig :=
  ⟨some "tests", some [specA, specMissing], some false, none⟩

/-- One valid entry plus one disabled entry. -/
def cfgDisabled : RunConfig :=
  ⟨some "tests", some [specA, specDisabled], some false, none⟩

/-- One valid entry plus one entry with no `enabled` key. -/
def cfgNoEnabled : RunConfig :=
  ⟨some "tests", some [specA, specNoEnabled], some false, none⟩

/-- The same configuration with the absent `enabled` written out as false. -/
def cfgNoEnabledAsFalse : RunConfig :=
  ⟨some "tests", some [specA, ⟨"NoEn", "a.py", some false, none⟩], some false, none⟩

/-- Two enabled, loadable entries sharing the name `"Dup"`. -/
def cfgDup : RunConfig :=
  ⟨some "tests", some [specDup1, specDup2], some false, none⟩

/-- A single entry whose `enabled` key is absent (for the defaulting claims). -/
def cfgOnlyNoEnabled : RunConfig := ⟨some "tests", some [specNoEnabled], none, none⟩

/-- Same, with `enabled` written out as false. -/
def cfgOnlyEnabledFalse : RunConfig :=
  ⟨some "tests", some [⟨"NoEn", "a.py", some false, none⟩], none, none⟩

/-- Same, with `enabled` written out as true. -/
def cfgOnlyEnabledTrue : RunConfig :=
  ⟨some "tests", some [⟨"NoEn", "a.py", some true, none⟩], none, none⟩

/-- A configuration that omits `save_results`. -/
def cfgSaveAbsent : RunConfig := ⟨some "tests", some [specA], none, some "out.json"⟩

/-- The same configuration with `save_results` written out as false. -/
def cfgSaveFalse : RunConfig := ⟨some "tests", some [specA], some false, some "out.json"⟩

/-- The same configuration with `save_results` set to true. -/
def cfgSaveTrue : RunConfig := ⟨some "tests", some [specA], some true, some "out.json"⟩

/-- An enabled check whose `parameters` key is absent, bound to the echoing
module: what `run` receives is observable in its payload. -/
def lcEchoNoParams : LoadedCheck := ⟨mEcho, ⟨"E", "echo.py", some true, none⟩⟩

/-- A concrete result set used for the persistence round-trip. -/
def rsSample : List (String × CheckResult) :=
  [("A", ⟨"success", some (JValue.obj [("v", JValue.num 1)]), none, "T1"⟩),
   ("B", ⟨"error", none, some "boom", "T2"⟩)]

/-! ### Dictionary lemmas -/

theorem alookup_dinsert_self (k : String) (v : α) (l : List (String × α)) :
    alookup k (dinsert k v l) = some v := by
  induction l with
  | nil => simp [dinsert, alookup]
  | cons p rest ih =>
    obtain ⟨k', v'⟩ := p
    by_cases h : k' = k
    · simp [dinsert, alookup, h]
    · simp [dinsert, alookup, h, ih]

theorem alookup_dinsert_ne (k k' : String) (v : α) (l : List (String × α)) (h : k' ≠ k) :
    alookup k' (dinsert k v l) = alookup k' l := by
  have hkk : ¬(k = k') := fun hh => h hh.symm
  induction l with
  | nil => simp [dinsert, alookup, hkk]
  | cons p rest ih =>
    obtain ⟨a, b⟩ := p
    by_cases ha : a = k
    · subst ha
      simp [dinsert, alookup, hkk]
    · simp [dinsert, alookup, ha, ih]

theorem mem_dinsert (q : String × α) (k : String) (v : α) (l : List (String × α))
    (hq : q ∈ dinsert k v l) : q = (k, v) ∨ q ∈ l := by
  induction l with
  | nil => simpa [dinsert] using hq
  | cons p rest ih =>
    obtain ⟨a, b⟩ := p
    by_cases ha : a = k
    · subst ha
      simp only [dinsert, if_pos rfl] at hq
      rcases List.mem_cons.mp hq with h1 | h1
      · exact Or.inl h1
      · exact Or.inr (List.mem_cons_of_mem _ h1)
    · simp only [dinsert, if_neg ha] at hq
      rcases List.mem_cons.mp hq with h1 | h1
      · exact Or.inr (h1 ▸ List.mem_cons_self _ _)
      · rcases ih h1 with h2 | h2
        · exact Or.inl h2
        · exact Or.inr (List.mem_cons_of_mem _ h2)

theorem keys_dinsert (k : String) (v : α) (l : List (String × α)) :
    keys (dinsert k v l) = insKey (keys l) k := by
  induction l with
  | nil => simp [dinsert, keys, insKey]
  | cons p rest ih =>
    obtain ⟨a, b⟩ := p
    by_cases ha : a = k
    · subst ha
      simp [dinsert, keys, insKey]
    · have h1 : keys (dinsert k v ((a, b) :: rest)) = a :: keys (dinsert k v rest) := by
        simp [dinsert, ha, keys]
      rw [h1, ih]
      by_cases hk : k ∈ keys rest
      · have hk2 : k ∈ List.map Prod.fst rest := hk
        have h22 : k ∈ a :: List.map Prod.fst rest := List.mem_cons_of_mem _ hk2
        simp only [insKey, keys, List.map_cons]
        rw [if_pos hk2, if_pos h22]
      · have hk2 : k ∉ List.map Prod.fst rest := hk
        have h22 : k ∉ a :: List.map Prod.fst rest := fun hm =>
          (List.mem_cons.mp hm).elim (fun he => ha he.symm) hk2
        simp only [insKey, keys, List.map_cons]
        rw [if_neg hk2, if_neg h22, List.cons_append]

theorem dinsert_eq_append (k : String) (v : α) (l : List (String × α))
    (h : k ∉ keys l) : dinsert k v l = l ++ [(k, v)] := by
  induction l with
  | nil => simp [dinsert]
  | cons p rest ih =>
    obtain ⟨a, b⟩ := p
    simp only [keys, List.map_cons, List.mem_cons] at h
    push_neg at h
    have ha : ¬a = k := fun he => h.1 he.symm
    simp [dinsert, ha, ih (by simpa [keys] using h.2)]

theorem mem_insKey (k k' : String) (ks : List String) :
    k' ∈ insKey ks k ↔ k' = k ∨ k' ∈ ks := by
  by_cases h : k ∈ ks
  · simp only [insKey, if_pos h]
    constructor
    · exact Or.inr
    · rintro (rfl | hk)
      · exact h
      · exact hk
  · simp [insKey, if_neg h, or_comm]

theorem insKey_nodup (ks : List String) (k : String) (h : ks.Nodup) :
    (insKey ks k).Nodup := by
  by_cases hk : k ∈ ks
  · simpa [insKey, if_pos hk] using h
  · simp [insKey, if_neg hk, List.nodup_append, h, hk]

theorem alookup_eq_some_of_mem (k : String) (v : α) (l : List (String × α))
    (hnd : (keys l).Nodup) (hm : (k, v) ∈ l) : alookup k l = some v := by
  induction l with
  | nil => cases hm
  | cons p rest ih =>
    obtain ⟨a, b⟩ := p
    simp only [keys, List.map_cons, List.nodup_cons] at hnd
    rcases List.mem_cons.mp hm with h | h
    · cases h
      simp [alookup]
    · have hak : a ≠ k := by
        intro hak
        exact hnd.1 (hak ▸ List.mem_map_of_mem Prod.fst h)
      simp [alookup, hak, ih (by simpa [keys] using hnd.2) h]

theorem alookup_map_val (g : α → β) (k : String) (l : List (String × α)) :
    alookup k (l.map (fun p => (p.1, g p.2))) = (alookup k l).map g := by
  induction l with
  | nil => simp [alookup]
  | cons p rest ih =>
    obtain ⟨a, b⟩ := p
    by_cases ha : a = k
    · simp [alookup, ha]
    · simp [alookup, ha, ih]

theorem keys_map_val (g : α → β) (l : List (String × α)) :
    keys (l.map (fun p => (p.1, g p.2))) = keys l := by
  simp [keys, List.map_map]

theorem keys_foldl_dinsert (l : List (String × α)) (t0 : List (String × α)) :
    keys (l.foldl (fun t p => dinsert p.1 p.2 t) t0) = (keys l).foldl insKey (keys t0) := by
  induction l generalizing t0 with
  | nil => rfl
  | cons p rest ih =>
    show keys (rest.foldl _ (dinsert p.1 p.2 t0)) = (keys (p :: rest)).foldl insKey (keys t0)
    rw [ih, keys_dinsert]
    rfl

theorem mem_foldl_insKey (k : String) (ks ks0 : List String) :
    k ∈ ks.foldl insKey ks0 ↔ k ∈ ks0 ∨ k ∈ ks := by
  induction ks generalizing ks0 with
  | nil => simp
  | cons a rest ih =>
    show k ∈ rest.foldl insKey (insKey ks0 a) ↔ _
    rw [ih, mem_insKey]
    simp only [List.mem_cons]
    tauto

theorem foldl_insKey_nodup (ks ks0 : List String) (h : ks0.Nodup) :
    (ks.foldl insKey ks0).Nodup := by
  induction ks generalizing ks0 with
  | nil => exact h
  | cons a rest ih => exact ih _ (insKey_nodup _ _ h)

theorem alookup_foldl_dinsert_of_ne (k : String) (l t0 : List (String × α))
    (h : ∀ p ∈ l, p.1 ≠ k) :
    alookup k (l.foldl (fun t p => dinsert p.1 p.2 t) t0) = alookup k t0 := by
  induction l generalizing t0 with
  | nil => rfl
  | cons p rest ih =>
    show alookup k (rest.foldl _ (dinsert p.1 p.2 t0)) = _
    rw [ih _ (fun q hq => h q (List.mem_cons_of_mem _ hq)),
      alookup_dinsert_ne _ _ _ _ (Ne.symm (h p (List.mem_cons_self _ _)))]

/-! ### Discovery characterization -/

theorem discoverStep_fst (env : Env) (dir : String)
    (st : List (String × LoadedCheck) × List Nat) (is : Nat × CheckSpec) :
    (discoverStep env dir st is).1 =
      match loadEntry env dir is.2 with
      | some p => dinsert p.1 p.2 st.1
      | none => st.1 := by
  obtain ⟨i, s⟩ := is
  by_cases he : isEnabled s
  · by_cases hp : env.pathExists (joinPath dir s.file)
    · cases hm : env.loadModule (joinPath dir s.file) with
      | none => simp [discoverStep, loadEntry, he, hp, hm]
      | some m =>
        by_cases hr : m.hasRun
        · simp [discoverStep, loadEntry, he, hp, hm, hr]
        · simp [discoverStep, loadEntry, he, hp, hm, hr]
    · simp [discoverStep, loadEntry, he, hp]
  · simp [discoverStep, loadEntry, he]

theorem discoverStep_snd (env : Env) (dir : String)
    (st : List (String × LoadedCheck) × List Nat) (is : Nat × CheckSpec) :
    (discoverStep env dir st is).2 =
      if attemptedB env dir is.2 then st.2 ++ [is.1] else st.2 := by
  obtain ⟨i, s⟩ := is
  by_cases he : isEnabled s
  · by_cases hp : env.pathExists (joinPath dir s.file)
    · cases hm : env.loadModule (joinPath dir s.file) with
      | none => simp [discoverStep, attemptedB, he, hp, hm]
      | some m =>
        by_cases hr : m.hasRun
        · simp [discoverStep, attemptedB, he, hp, hm, hr]
        · simp [discoverStep, attemptedB, he, hp, hm, hr]
    · simp [discoverStep, attemptedB, he, hp]
  · simp [discoverStep, attemptedB, he]

theorem discoverStep_disabled (env : Env) (dir : String)
    (st : List (String × LoadedCheck) × List Nat) (is : Nat × CheckSpec)
    (h : isEnabled is.2 = false) : discoverStep env dir st is = st := by
  obtain ⟨i, s⟩ := is
  simp [discoverStep, h]

theorem foldl_discover_fst (env : Env) (dir : String) (specs : List CheckSpec) :
    ∀ (n : Nat) (st : List (String × LoadedCheck) × List Nat),
      ((specs.enumFrom n).foldl (discoverStep env dir) st).1
        = (specs.filterMap (loadEntry env dir)).foldl (fun t p => dinsert p.1 p.2 t) st.1 := by
  induction specs with
  | nil => intro n st; rfl
  | cons s rest ih =>
    intro n st
    show ((rest.enumFrom (n + 1)).foldl (discoverStep env dir)
        (discoverStep env dir st (n, s))).1 = _
    rw [ih (n + 1) (discoverStep env dir st (n, s)), discoverStep_fst]
    cases hle : loadEntry env dir s with
    | none => simp [List.filterMap_cons, hle]
    | some p => simp [List.filterMap_cons, hle]

theorem foldl_discover_snd (env : Env) (dir : String) (specs : List CheckSpec) :
    ∀ (n : Nat) (st : List (String × LoadedCheck) × List Nat),
      ((specs.enumFrom n).foldl (discoverStep env dir) st).2
        = st.2 ++ ((specs.enumFrom n).filter (fun p => attemptedB env dir p.2)).map Prod.fst := by
  induction specs with
  | nil => intro n st; simp [List.enumFrom]
  | cons s rest ih =>
    intro n st
    show ((rest.enumFrom (n + 1)).foldl (discoverStep env dir)
        (discoverStep env dir st (n, s))).2 = _
    rw [ih (n + 1) (discoverStep env dir st (n, s)), discoverStep_snd]
    by_cases ha : attemptedB env dir s
    · simp [List.filter_cons, ha]
    · simp [List.filter_cons, ha]

theorem discoveredTests_eq (env : Env) (cfg : RunConfig) (specs : List CheckSpec)
    (h : cfg.tests = some specs) :
    discoveredTests env cfg = dictOfLoaded env (testsDirectory cfg) specs := by
  have h2 : discoverTests env cfg
      = some ((specs.enum).foldl (discoverStep env (testsDirectory cfg)) ([], [])) := by
    unfold discoverTests
    rw [h]
  unfold discoveredTests
  rw [h2]
  simpa [dictOfLoaded, List.enum] using
    foldl_discover_fst env (testsDirectory cfg) specs 0 ([], [])

theorem loadLog_eq (env : Env) (cfg : RunConfig) (specs : List CheckSpec)
    (h : cfg.tests = some specs) :
    loadLog env cfg
      = ((specs.enum).filter (fun p => attemptedB env (testsDirectory cfg) p.2)).map Prod.fst := by
  have h2 : discoverTests env cfg
      = some ((specs.enum).foldl (discoverStep env (testsDirectory cfg)) ([], [])) := by
    unfold discoverTests
    rw [h]
  unfold loadLog
  rw [h2]
  simpa [List.enum] using foldl_discover_snd env (testsDirectory cfg) specs 0 ([], [])

theorem loadEntry_some_name (env : Env) (dir : String) (s : CheckSpec)
    (p : String × LoadedCheck) (h : loadEntry env dir s = some p) :
    p.1 = s.name ∧ p.2.config = s := by
  by_cases he : isEnabled s
  · by_cases hp : env.pathExists (joinPath dir s.file)
    · cases hm : env.loadModule (joinPath dir s.file) with
      | none => simp [loadEntry, he, hp, hm] at h
      | some m =>
        by_cases hr : m.hasRun
        · simp [loadEntry, he, hp, hm, hr] at h
          subst h
          exact ⟨rfl, rfl⟩
        · simp [loadEntry, he, hp, hm, hr] at h
    · simp [loadEntry, he, hp] at h
  · simp [loadEntry, he] at h

theorem loadEntry_disabled (env : Env) (dir : String) (s : CheckSpec)
    (h : isEnabled s = false) : loadEntry env dir s = none := by
  simp [loadEntry, h]

theorem attemptedB_disabled (env : Env) (dir : String) (s : CheckSpec)
    (h : isEnabled s = false) : attemptedB env dir s = false := by
  simp [attemptedB, h]

theorem mem_keys_dictOfLoaded (env : Env) (dir : String) (specs : List CheckSpec)
    (k : String) (h : k ∈ keys (dictOfLoaded env dir specs)) :
    ∃ s ∈ specs, ∃ lc, loadEntry env dir s = some (k, lc) := by
  unfold dictOfLoaded at h
  rw [keys_foldl_dinsert, mem_foldl_insKey] at h
  rcases h with h | h
  · simp [keys] at h
  · rcases List.mem_map.mp h with ⟨p, hp, hpk⟩
    rcases List.mem_filterMap.mp hp with ⟨s, hs, hls⟩
    obtain ⟨p1, p2⟩ := p
    dsimp at hpk
    subst hpk
    exact ⟨s, hs, p2, hls⟩

theorem keys_dictOfLoaded_nodup (env : Env) (dir : String) (specs : List CheckSpec) :
    (keys (dictOfLoaded env dir specs)).Nodup := by
  unfold dictOfLoaded
  rw [keys_foldl_dinsert]
  exact foldl_insKey_nodup _ _ (by simp [keys])

theorem keys_discoveredTests_nodup (env : Env) (cfg : RunConfig) :
    (keys (discoveredTests env cfg)).Nodup := by
  cases h : cfg.tests with
  | none =>
    unfold discoveredTests discoverTests
    rw [h]
    simp [keys]
  | some specs =>
    rw [discoveredTests_eq env cfg specs h]
    exact keys_dictOfLoaded_nodup env (testsDirectory cfg) specs

/-! ### Execution characterization -/

theorem foldl_run_append (env : Env) (tests : List (String × LoadedCheck))
    (acc : List (String × CheckResult))
    (hacc : ∀ p ∈ tests, p.1 ∉ keys acc) (hnd : (keys tests).Nodup) :
    tests.foldl (fun a p => dinsert p.1 (runTest env p.2) a) acc
      = acc ++ tests.map (fun p => (p.1, runTest env p.2)) := by
  induction tests generalizing acc with
  | nil => simp
  | cons p rest ih =>
    obtain ⟨n, lc⟩ := p
    simp only [keys, List.map_cons, List.nodup_cons] at hnd
    obtain ⟨hn1, hn2⟩ := hnd
    show rest.foldl _ (dinsert n (runTest env lc) acc) = _
    rw [dinsert_eq_append _ _ _ (hacc (n, lc) (List.mem_cons_self _ _))]
    have hacc' : ∀ q ∈ rest, q.1 ∉ keys (acc ++ [(n, runTest env lc)]) := by
      intro q hq hmem
      simp only [keys, List.map_append, List.map_cons, List.map_nil, List.mem_append,
        List.mem_singleton] at hmem
      rcases hmem with hin | hin
      · exact hacc q (List.mem_cons_of_mem _ hq) hin
      · exact hn1 (hin ▸ List.mem_map_of_mem Prod.fst hq)
    rw [ih _ hacc' hn2]
    simp

theorem runAllTests_eq_map (env : Env) (tests : List (String × LoadedCheck))
    (h : (keys tests).Nodup) :
    runAllTests env tests = tests.map (fun p => (p.1, runTest env p.2)) := by
  unfold runAllTests
  rw [foldl_run_append env tests [] (by simp [keys]) h]
  simp

theorem keys_runAllTests (env : Env) (tests : List (String × LoadedCheck))
    (h : (keys tests).Nodup) :
    keys (runAllTests env tests) = keys tests := by
  rw [runAllTests_eq_map env tests h, keys_map_val]

theorem mem_foldl_dinsert_run (env : Env) (tests : List (String × LoadedCheck))
    (acc : List (String × CheckResult)) (q : String × CheckResult)
    (hq : q ∈ tests.foldl (fun a p => dinsert p.1 (runTest env p.2) a) acc) :
    q ∈ acc ∨ ∃ lc, q.2 = runTest env lc := by
  induction tests generalizing acc with
  | nil => exact Or.inl hq
  | cons p rest ih =>
    rcases ih (dinsert p.1 (runTest env p.2) acc) hq with h1 | h1
    · rcases mem_dinsert _ _ _ _ h1 with h2 | h2
      · exact Or.inr ⟨p.2, by rw [h2]⟩
      · exact Or.inl h2
    · exact Or.inr h1

theorem mainRun_results (env : Env) (cfg : RunConfig) :
    (mainRun env (some cfg)).results = runAllTests env (discoveredTests env cfg) := by
  cases h : discoverTests env cfg with
  | none =>
    have h1 : mainRunCfg env cfg = ⟨1, [], none⟩ := by
      unfold mainRunCfg
      rw [h]
    have h2 : discoveredTests env cfg = [] := by
      unfold discoveredTests
      rw [h]
    show (mainRunCfg env cfg).results = _
    rw [h1, h2]
    rfl
  | some p =>
    obtain ⟨tests, log⟩ := p
    have h2 : discoveredTests env cfg = tests := by
      unfold discoveredTests
      rw [h]
    show (mainRunCfg env cfg).results = _
    by_cases he : tests.isEmpty
    · have hnil : tests = [] := by simpa using he
      have h1 : mainRunCfg env cfg = ⟨1, [], none⟩ := by
        unfold mainRunCfg
        rw [h]
        simp [he]
      rw [h1, h2, hnil]
      rfl
    · have h1 : mainRunCfg env cfg
          = ⟨0, runAllTests env tests, persistedReport env cfg (runAllTests env tests)⟩ := by
        unfold mainRunCfg
        rw [h]
        simp [he, runAllTests]
      rw [h1, h2]

/-! ### Further helper lemmas -/

theorem mem_keys_of_alookup (k : String) (v : α) (l : List (String × α))
    (h : alookup k l = some v) : k ∈ keys l := by
  induction l with
  | nil => cases h
  | cons p rest ih =>
    obtain ⟨a, b⟩ := p
    by_cases ha : a = k
    · simp [keys, ha]
    · simp only [alookup, if_neg ha] at h
      show k ∈ a :: keys rest
      exact List.mem_cons_of_mem _ (ih h)

theorem isEmpty_congr_keys (l1 l2 : List (String × α))
    (h : keys l1 = keys l2) : l1.isEmpty = l2.isEmpty := by
  cases l1 <;> cases l2 <;> simp [keys] at h ⊢

theorem mainRunCfg_exitCode (env : Env) (cfg : RunConfig) :
    (mainRunCfg env cfg).exitCode
      = if (discoveredTests env cfg).isEmpty then 1 else 0 := by
  cases h : discoverTests env cfg with
  | none =>
    have h2 : discoveredTests env cfg = [] := by
      unfold discoveredTests
      rw [h]
    unfold mainRunCfg
    rw [h, h2]
    rfl
  | some p =>
    obtain ⟨tests, log⟩ := p
    have h2 : discoveredTests env cfg = tests := by
      unfold discoveredTests
      rw [h]
    unfold mainRunCfg
    rw [h, h2]
    by_cases he : tests.isEmpty
    · simp [he]
    · simp [he]

theorem loadEntry_withRuns (env : Env) (f : String → JValue → Except String JValue)
    (dir : String) (s : CheckSpec) :
    loadEntry (env.withRuns f) dir s
      = (loadEntry env dir s).map
          (fun p => (p.1, ⟨⟨p.2.module.hasRun, f (joinPath dir p.2.config.file)⟩, p.2.config⟩)) := by
  by_cases he : isEnabled s
  · by_cases hp : env.pathExists (joinPath dir s.file)
    · cases hm : env.loadModule (joinPath dir s.file) with
      | none => simp [loadEntry, Env.withRuns, he, hp, hm]
      | some m =>
        by_cases hr : m.hasRun
        · simp [loadEntry, Env.withRuns, he, hp, hm, hr]
        · simp [loadEntry, Env.withRuns, he, hp, hm, hr]
    · simp [loadEntry, Env.withRuns, he, hp]
  · simp [loadEntry, Env.withRuns, he]

theorem keys_map_pres (f : (String × α) → (String × β)) (hf : ∀ p, (f p).1 = p.1)
    (l : List (String × α)) : keys (l.map f) = keys l := by
  induction l with
  | nil => rfl
  | cons p rest ih =>
    simp only [List.map_cons, keys] at ih ⊢
    rw [hf p, ih]

theorem keys_dictOfLoaded_withRuns (env : Env)
    (f : String → JValue → Except String JValue) (dir : String) (specs : List CheckSpec) :
    keys (dictOfLoaded (env.withRuns f) dir specs)
      = keys (dictOfLoaded env dir specs) := by
  unfold dictOfLoaded
  rw [keys_foldl_dinsert, keys_foldl_dinsert]
  have h1 : specs.filterMap (loadEntry (env.withRuns f) dir)
      = (specs.filterMap (loadEntry env dir)).map
          (fun p => (p.1, ⟨⟨p.2.module.hasRun, f (joinPath dir p.2.config.file)⟩, p.2.config⟩)) := by
    rw [List.map_filterMap]
    exact List.filterMap_congr (fun s _ => loadEntry_withRuns env f dir s)
  have h2 : keys ((specs.filterMap (loadEntry env dir)).map
      (fun p => (p.1,
        (⟨⟨p.2.module.hasRun, f (joinPath dir p.2.config.file)⟩, p.2.config⟩ : LoadedCheck))))
      = keys (specs.filterMap (loadEntry env dir)) := by
    apply keys_map_pres
    intro p
    rfl
  rw [h1, h2]

theorem discoveredTests_withRuns_isEmpty (env : Env)
    (f : String → JValue → Except String JValue) (cfg : RunConfig) :
    (discoveredTests (env.withRuns f) cfg).isEmpty = (discoveredTests env cfg).isEmpty := by
  cases h : cfg.tests with
  | none =>
    have h1 : discoveredTests (env.withRuns f) cfg = [] := by
      unfold discoveredTests discoverTests
      rw [h]
    have h2 : discoveredTests env cfg = [] := by
      unfold discoveredTests discoverTests
      rw [h]
    rw [h1, h2]
  | some specs =>
    rw [discoveredTests_eq (env.withRuns f) cfg specs h, discoveredTests_eq env cfg specs h]
    exact isEmpty_congr_keys _ _
      (keys_dictOfLoaded_withRuns env f (testsDirectory cfg) specs)

theorem not_in_loadLog (env : Env) (cfg : RunConfig) (specs : List CheckSpec)
    (i : Nat) (s : CheckSpec)
    (hcfg : cfg.tests = some specs)
    (hidx : specs[i]? = some s)
    (hen : isEnabled s = false) :
    i ∉ loadLog env cfg := by
  intro hin
  rw [loadLog_eq env cfg specs hcfg] at hin
  rcases List.mem_map.mp hin with ⟨p, hp, hpi⟩
  obtain ⟨i', s'⟩ := p
  rcases List.mem_filter.mp hp with ⟨hpmem, hpatt⟩
  dsimp at hpi
  subst hpi
  have hsp : specs[i']? = some s' := List.mk_mem_enum_iff_getElem?.mp hpmem
  rw [hidx] at hsp
  injection hsp with hss
  subst hss
  rw [attemptedB_disabled env _ s hen] at hpatt
  exact Bool.false_ne_true hpatt

theorem name_excluded (env : Env) (cfg : RunConfig) (specs : List CheckSpec) (s : CheckSpec)
    (hcfg : cfg.tests = some specs)
    (hnone : loadEntry env (testsDirectory cfg) s = none)
    (huniq : ∀ s' ∈ specs, s'.name = s.name → s' = s) :
    s.name ∉ keys (discoveredTests env cfg)
    ∧ s.name ∉ keys ((mainRun env (some cfg)).results) := by
  have h1 : s.name ∉ keys (discoveredTests env cfg) := by
    intro hk
    rw [discoveredTests_eq env cfg specs hcfg] at hk
    rcases mem_keys_dictOfLoaded _ _ _ _ hk with ⟨s', hs', lc, hls⟩
    have hname := (loadEntry_some_name _ _ _ _ hls).1
    have heq := huniq s' hs' hname.symm
    rw [heq, hnone] at hls
    cases hls
  refine ⟨h1, ?_⟩
  intro hk
  rw [mainRun_results env cfg,
    keys_runAllTests env _ (keys_discoveredTests_nodup env cfg)] at hk
  exact h1 hk

theorem mem_results_runTest (env : Env) (cfgOpt : Option RunConfig)
    (q : String × CheckResult) (hq : q ∈ (mainRun env cfgOpt).results) :
    ∃ lc, q.2 = runTest env lc := by
  cases cfgOpt with
  | none => exact absurd hq (List.not_mem_nil q)
  | some cfg =>
    rw [mainRun_results] at hq
    unfold runAllTests at hq
    rcases mem_foldl_dinsert_run env _ [] q hq with h | h
    · exact absurd h (List.not_mem_nil q)
    · exact h

theorem runTest_wellFormed (env : Env) (lc : LoadedCheck) :
    wellFormedResult (runTest env lc) := by
  cases hrun : lc.module.run (getParameters lc.config) with
  | ok v => left; simp [runTest, hrun]
  | error e => right; simp [runTest, hrun]

theorem counts_split (rs : List (String × CheckResult))
    (h : ∀ q ∈ rs, q.2.status = "success" ∨ q.2.status = "error") :
    successCount rs + errorCount rs = rs.length := by
  induction rs with
  | nil => rfl
  | cons q rest ih =>
    have hrest : ∀ p ∈ rest, p.2.status = "success" ∨ p.2.status = "error" :=
      fun p hp => h p (List.mem_cons_of_mem _ hp)
    have ih' := ih hrest
    rcases h q (List.mem_cons_self _ _) with hs | hs
    · simp only [successCount, errorCount, List.filter_cons, hs] at ih' ⊢
      simp only [List.length_cons]
      simp [ih']
      omega
    · simp only [successCount, errorCount, List.filter_cons, hs] at ih' ⊢
      simp only [List.length_cons]
      simp [ih']
      omega

theorem decodeResult_encodeResult (r : CheckResult) :
    decodeResult (encodeResult r) = some r := by
  obtain ⟨st, res, err, ts⟩ := r
  cases res <;> cases err <;> rfl

theorem decodeResults_encodeResults (rs : List (String × CheckResult)) :
    decodeResults (encodeResults rs) = some rs := by
  induction rs with
  | nil => rfl
  | cons p rest ih =>
    obtain ⟨n, r⟩ := p
    have ih' : decodeEntries (rest.map (fun p => (p.1, encodeResult p.2))) = some rest := ih
    show decodeEntries ((n, encodeResult r) :: rest.map (fun p => (p.1, encodeResult p.2)))
        = some ((n, r) :: rest)
    simp [decodeEntries, decodeResult_encodeResult, ih']

theorem foldl_discover_congr_disabled (env : Env) (dir : String)
    (l1 l2 : List CheckSpec) (s s' : CheckSpec)
    (hs : isEnabled s = false) (hs' : isEnabled s' = false) :
    ∀ (n : Nat) (st : List (String × LoadedCheck) × List Nat),
      ((l1 ++ (s :: l2)).enumFrom n).foldl (discoverStep env dir) st
        = ((l1 ++ (s' :: l2)).enumFrom n).foldl (discoverStep env dir) st := by
  induction l1 with
  | nil =>
    intro n st
    show (l2.enumFrom (n + 1)).foldl (discoverStep env dir) (discoverStep env dir st (n, s))
        = (l2.enumFrom (n + 1)).foldl (discoverStep env dir) (discoverStep env dir st (n, s'))
    rw [discoverStep_disabled env dir st (n, s) hs,
      discoverStep_disabled env dir st (n, s') hs']
  | cons a rest ih =>
    intro n st
    show ((rest ++ (s :: l2)).enumFrom (n + 1)).foldl (discoverStep env dir)
        (discoverStep env dir st (n, a))
      = ((rest ++ (s' :: l2)).enumFrom (n + 1)).foldl (discoverStep env dir)
        (discoverStep env dir st (n, a))
    exact ih (n + 1) _

/-! ### Claim theorems -/

/-- Claim C1, counterexample to the claim as stated: in a three-check batch
whose middle check raises an exception stringifying to the empty string
(Python's `str(Exception())`), the engine records `status = error` with an
EMPTY `errorMessage` — refuting the claim's requirement that the recorded
`errorMessage` be non-empty — while all three checks still produce results. -/
theorem c1_counterexample :
    alookup "EmptyMsg" ((mainRun wEnv (some cfgEmptyMsg)).results)
      = some ⟨"error", none, some "", "2024-01-01T00:00:00"⟩
    ∧ ((mainRun wEnv (some cfgEmptyMsg)).results).length = 3 :=
  ⟨rfl, rfl⟩

/-- Claim C1 (amended): for every loaded check, the result set records
exactly the outcome of invoking that check — so no other check's failure
prevents it from running — and when the invocation raises, the recorded
result has `status = error` and `errorMessage` equal to the stringified
failure (which is non-empty exactly when the stringified failure is). -/
theorem c1_error_isolation (env : Env) (cfg : RunConfig) (n : String) (lc : LoadedCheck)
    (hmem : (n, lc) ∈ discoveredTests env cfg) :
    alookup n ((mainRun env (some cfg)).results) = some (runTest env lc)
    ∧ (∀ e, lc.module.run (getParameters lc.config) = Except.error e →
        runTest env lc = ⟨"error", none, some e, env.now⟩) := by
  constructor
  · rw [mainRun_results, runAllTests_eq_map env _ (keys_discoveredTests_nodup env cfg),
      alookup_map_val,
      alookup_eq_some_of_mem n lc _ (keys_discoveredTests_nodup env cfg) hmem]
    rfl
  · intro e he
    unfold runTest
    rw [he]

/-- Witness for C1 (amended), on the three-check batch whose middle check
raises `"boom"`. -/
theorem c1_error_isolation_witness :
    (("Boom", (⟨mBoom, specBoom⟩ : LoadedCheck)) ∈ discoveredTests wEnv cfgBoom)
    ∧ (alookup "Boom" ((mainRun wEnv (some cfgBoom)).results)
        = some (runTest wEnv ⟨mBoom, specBoom⟩)
      ∧ (∀ e, (⟨mBoom, specBoom⟩ : LoadedCheck).module.run
            (getParameters (⟨mBoom, specBoom⟩ : LoadedCheck).config) = Except.error e →
          runTest wEnv ⟨mBoom, specBoom⟩ = ⟨"error", none, some e, wEnv.now⟩)) := by
  have hmem : ("Boom", (⟨mBoom, specBoom⟩ : LoadedCheck)) ∈ discoveredTests wEnv cfgBoom := by
    rw [show discoveredTests wEnv cfgBoom
        = [("A", ⟨mOk (JValue.str "A"), specA⟩), ("Boom", ⟨mBoom, specBoom⟩),
           ("C", ⟨mEcho, specC⟩)] from rfl]
    exact List.mem_cons_of_mem _ (List.mem_cons_self _ _)
  exact ⟨hmem, c1_error_isolation wEnv cfgBoom "Boom" ⟨mBoom, specBoom⟩ hmem⟩

/-- Claim C2: a per-entry load failure (missing file, failing load, or no
`run` entry point) skips only that entry: discovery is exactly the
independent per-entry fold over all specs, and the skipped entry's name
never reaches the result set (given the data model's name uniqueness). -/
theorem c2_loader_isolation (env : Env) (cfg : RunConfig) (specs : List CheckSpec)
    (s : CheckSpec)
    (hcfg : cfg.tests = some specs)
    (hmem : s ∈ specs)
    (hen : isEnabled s = true)
    (hfail : loadEntry env (testsDirectory cfg) s = none)
    (huniq : ∀ s' ∈ specs, s'.name = s.name → s' = s) :
    discoveredTests env cfg = dictOfLoaded env (testsDirectory cfg) specs
    ∧ s.name ∉ keys (discoveredTests env cfg)
    ∧ s.name ∉ keys ((mainRun env (some cfg)).results) := by
  have hx := name_excluded env cfg specs s hcfg hfail huniq
  exact ⟨discoveredTests_eq env cfg specs hcfg, hx.1, hx.2⟩

/-- Witness for C2: one valid entry plus one whose resolved file is
missing; the valid one is loaded, the missing one is absent from the
result set. -/
theorem c2_loader_isolation_witness :
    loadEntry wEnv (testsDirectory cfgMissing) specMissing = none
    ∧ (discoveredTests wEnv cfgMissing
        = dictOfLoaded wEnv (testsDirectory cfgMissing) [specA, specMissing]
      ∧ specMissing.name ∉ keys (discoveredTests wEnv cfgMissing)
      ∧ specMissing.name ∉ keys ((mainRun wEnv (some cfgMissing)).results)) := by
  have hfail : loadEntry wEnv (testsDirectory cfgMissing) specMissing = none := rfl
  refine ⟨hfail, c2_loader_isolation wEnv cfgMissing [specA, specMissing] specMissing rfl
    (List.mem_cons_of_mem _ (List.mem_cons_self _ _)) rfl hfail ?_⟩
  intro s' hs' hn
  rcases List.mem_cons.mp hs' with h | h
  · exact absurd (h ▸ hn) (by decide)
  · simpa using h

/-- Claim C3: the process exits 1 exactly when the configuration cannot be
loaded or zero checks were loaded; otherwise 0 — independent of every
check's run outcome and of whether the report write succeeds. -/
theorem c3_exit_code (env : Env) :
    (mainRun env none).exitCode = 1
    ∧ (∀ cfg, (mainRun env (some cfg)).exitCode
        = if (discoveredTests env cfg).isEmpty then 1 else 0)
    ∧ (∀ (w : String → Bool) (cfgOpt : Option RunConfig),
        (mainRun (env.withWriteOk w) cfgOpt).exitCode = (mainRun env cfgOpt).exitCode)
    ∧ (∀ (f : String → JValue → Except String JValue) (cfgOpt : Option RunConfig),
        (mainRun (env.withRuns f) cfgOpt).exitCode = (mainRun env cfgOpt).exitCode) := by
  refine ⟨rfl, fun cfg => mainRunCfg_exitCode env cfg, ?_, ?_⟩
  · intro w cfgOpt
    cases cfgOpt with
    | none => rfl
    | some cfg =>
      show (mainRunCfg (env.withWriteOk w) cfg).exitCode = (mainRunCfg env cfg).exitCode
      rw [mainRunCfg_exitCode, mainRunCfg_exitCode]
      have hd : discoveredTests (env.withWriteOk w) cfg = discoveredTests env cfg := rfl
      rw [hd]
  · intro f cfgOpt
    cases cfgOpt with
    | none => rfl
    | some cfg =>
      show (mainRunCfg (env.withRuns f) cfg).exitCode = (mainRunCfg env cfg).exitCode
      rw [mainRunCfg_exitCode, mainRunCfg_exitCode, discoveredTests_withRuns_isEmpty]

/-- Claim C4: every result ever placed in the result set satisfies the
status-determined exclusivity of payload and errorMessage. -/
theorem c4_result_invariant (env : Env) (cfgOpt : Option RunConfig)
    (q : String × CheckResult) (hq : q ∈ (mainRun env cfgOpt).results) :
    wellFormedResult q.2 := by
  rcases mem_results_runTest env cfgOpt q hq with ⟨lc, hlc⟩
  rw [hlc]
  exact runTest_wellFormed env lc

/-- Witness for C4: the first result of the `cfgBoom` run. -/
theorem c4_result_invariant_witness :
    (("A", (⟨"success", some (JValue.str "A"), none, "2024-01-01T00:00:00"⟩ : CheckResult))
        ∈ (mainRun wEnv (some cfgBoom)).results)
    ∧ wellFormedResult
        (("A", (⟨"success", some (JValue.str "A"), none,
          "2024-01-01T00:00:00"⟩ : CheckResult)) :
            String × CheckResult).2 := by
  have hq : ("A", (⟨"success", some (JValue.str "A"), none,
      "2024-01-01T00:00:00"⟩ : CheckResult)) ∈ (mainRun wEnv (some cfgBoom)).results := by
    rw [show (mainRun wEnv (some cfgBoom)).results
        = [("A", ⟨"success", some (JValue.str "A"), none, "2024-01-01T00:00:00"⟩),
           ("Boom", ⟨"error", none, some "boom", "2024-01-01T00:00:00"⟩),
           ("C", ⟨"success", some (JValue.obj []), none, "2024-01-01T00:00:00"⟩)] from rfl]
    exact List.mem_cons_self _ _
  exact ⟨hq, c4_result_invariant wEnv (some cfgBoom) _ hq⟩

/-- Claim C5: the summary counts always satisfy
`successCount + errorCount = |ResultSet|`. -/
theorem c5_summary_counts (env : Env) (cfgOpt : Option RunConfig) :
    successCount (mainRun env cfgOpt).results + errorCount (mainRun env cfgOpt).results
      = (mainRun env cfgOpt).results.length := by
  apply counts_split
  intro q hq
  rcases mem_results_runTest env cfgOpt q hq with ⟨lc, hlc⟩
  rcases runTest_wellFormed env lc with h | h
  · exact Or.inl (hlc ▸ h.1)
  · exact Or.inr (hlc ▸ h.1)

/-- Claim C6: a spec whose `enabled` field is false is never loaded (its
index never enters the load log, so `load_test_module` is never called for
it), and — given the data model's name uniqueness — its name never appears
among the loaded checks nor in the result set, so its `run` entry point is
never invoked. -/
theorem c6_disabled_never_runs (env : Env) (cfg : RunConfig) (specs : List CheckSpec)
    (i : Nat) (s : CheckSpec)
    (hcfg : cfg.tests = some specs)
    (hidx : specs[i]? = some s)
    (hdis : s.enabled = some false)
    (huniq : ∀ s' ∈ specs, s'.name = s.name → s' = s) :
    i ∉ loadLog env cfg
    ∧ s.name ∉ keys (discoveredTests env cfg)
    ∧ s.name ∉ keys ((mainRun env (some cfg)).results) := by
  have hen : isEnabled s = false := by simp [isEnabled, hdis]
  have hx := name_excluded env cfg specs s hcfg (loadEntry_disabled env _ s hen) huniq
  exact ⟨not_in_loadLog env cfg specs i s hcfg hidx hen, hx.1, hx.2⟩

/-- Witness for C6: a disabled entry next to an enabled one. -/
theorem c6_disabled_never_runs_witness :
    [specA, specDisabled][1]? = some specDisabled
    ∧ specDisabled.enabled = some false
    ∧ (1 ∉ loadLog wEnv cfgDisabled
      ∧ specDisabled.name ∉ keys (discoveredTests wEnv cfgDisabled)
      ∧ specDisabled.name ∉ keys ((mainRun wEnv (some cfgDisabled)).results)) := by
  refine ⟨rfl, rfl, c6_disabled_never_runs wEnv cfgDisabled [specA, specDisabled] 1
    specDisabled rfl rfl rfl ?_⟩
  intro s' hs' hn
  rcases List.mem_cons.mp hs' with h | h
  · exact absurd (h ▸ hn) (by decide)
  · simpa using h

/-- Claim C7: when two enabled, loadable specs share a name, the result set
holds exactly one entry under that name — the later spec's (the second
silently overwrites the first) — the keys stay unique, and the result list
is exactly the loaded checks in execution order. -/
theorem c7_name_collision (env : Env) (cfg : RunConfig)
    (l1 l2 l3 : List CheckSpec) (s1 s2 : CheckSpec) (lc1 lc2 : LoadedCheck)
    (hcfg : cfg.tests = some (l1 ++ (s1 :: (l2 ++ (s2 :: l3)))))
    (hname : s1.name = s2.name)
    (hothers : ∀ s ∈ l1 ++ (l2 ++ l3), s.name ≠ s2.name)
    (h1 : loadEntry env (testsDirectory cfg) s1 = some (s1.name, lc1))
    (h2 : loadEntry env (testsDirectory cfg) s2 = some (s2.name, lc2)) :
    alookup s2.name (discoveredTests env cfg) = some lc2
    ∧ alookup s2.name ((mainRun env (some cfg)).results) = some (runTest env lc2)
    ∧ (keys ((mainRun env (some cfg)).results)).count s2.name = 1
    ∧ (keys ((mainRun env (some cfg)).results)).Nodup
    ∧ (mainRun env (some cfg)).results
        = (discoveredTests env cfg).map (fun p => (p.1, runTest env p.2)) := by
  have hdict := discoveredTests_eq env cfg _ hcfg
  have hfm : (l1 ++ (s1 :: (l2 ++ (s2 :: l3)))).filterMap (loadEntry env (testsDirectory cfg))
      = l1.filterMap (loadEntry env (testsDirectory cfg))
        ++ ((s1.name, lc1) :: (l2.filterMap (loadEntry env (testsDirectory cfg))
          ++ ((s2.name, lc2) :: l3.filterMap (loadEntry env (testsDirectory cfg))))) := by
    simp [List.filterMap_append, List.filterMap_cons, h1, h2]
  have hkeysC : ∀ p ∈ l3.filterMap (loadEntry env (testsDirectory cfg)), p.1 ≠ s2.name := by
    intro p hp
    rcases List.mem_filterMap.mp hp with ⟨s, hs, hls⟩
    rw [(loadEntry_some_name _ _ _ _ hls).1]
    exact hothers s (by simp [hs])
  have ha : alookup s2.name (discoveredTests env cfg) = some lc2 := by
    rw [hdict]
    unfold dictOfLoaded
    rw [hfm, List.foldl_append, List.foldl_cons, List.foldl_append, List.foldl_cons,
      alookup_foldl_dinsert_of_ne _ _ _ hkeysC]
    exact alookup_dinsert_self _ _ _
  have hnd := keys_discoveredTests_nodup env cfg
  have hkr : keys ((mainRun env (some cfg)).results) = keys (discoveredTests env cfg) := by
    rw [mainRun_results, keys_runAllTests env _ hnd]
  refine ⟨ha, ?_, ?_, ?_, ?_⟩
  · rw [mainRun_results, runAllTests_eq_map env _ hnd, alookup_map_val, ha]
    rfl
  · rw [hkr]
    exact List.count_eq_one_of_mem hnd (mem_keys_of_alookup _ _ _ ha)
  · rw [hkr]
    exact hnd
  · rw [mainRun_results]
    exact runAllTests_eq_map env _ hnd

/-- Witness for C7: two loadable specs both named `"Dup"`; the second one's
(raising) module wins. -/
theorem c7_name_collision_witness :
    loadEntry wEnv (testsDirectory cfgDup) specDup2 = some (specDup2.name, ⟨mBoom, specDup2⟩)
    ∧ (alookup specDup2.name (discoveredTests wEnv cfgDup) = some ⟨mBoom, specDup2⟩
      ∧ alookup specDup2.name ((mainRun wEnv (some cfgDup)).results)
          = some (runTest wEnv ⟨mBoom, specDup2⟩)
      ∧ (keys ((mainRun wEnv (some cfgDup)).results)).count specDup2.name = 1
      ∧ (keys ((mainRun wEnv (some cfgDup)).results)).Nodup
      ∧ (mainRun wEnv (some cfgDup)).results
          = (discoveredTests wEnv cfgDup).map (fun p => (p.1, runTest wEnv p.2))) := by
  refine ⟨rfl, c7_name_collision wEnv cfgDup [] [] [] specDup1 specDup2
    ⟨mOk (JValue.str "A"), specDup1⟩ ⟨mBoom, specDup2⟩ rfl rfl ?_ rfl rfl⟩
  simp

/-- Claim C8, counterexample to the claim as stated: besides the two
defaults the claim allows, the core also applies implicit defaults to
`enabled` (absent behaves exactly like false, unlike true), to
`save_results` (absent behaves exactly like false, unlike true), and to
`parameters` (absent makes `run` receive the empty mapping). -/
theorem c8_counterexample :
    mainRun wEnv (some cfgOnlyNoEnabled) = mainRun wEnv (some cfgOnlyEnabledFalse)
    ∧ (mainRun wEnv (some cfgOnlyNoEnabled)).exitCode = 1
    ∧ (mainRun wEnv (some cfgOnlyEnabledTrue)).exitCode = 0
    ∧ persistedReport wEnv cfgSaveAbsent rsSample = none
    ∧ persistedReport wEnv cfgSaveFalse rsSample = none
    ∧ persistedReport wEnv cfgSaveTrue rsSample
        = some ("out.json", encodeResults rsSample)
    ∧ runTest wEnv lcEchoNoParams
        = ⟨"success", some (JValue.obj []), none, "2024-01-01T00:00:00"⟩ :=
  ⟨rfl, rfl, rfl, rfl, rfl, rfl, rfl⟩

/-- Claim C8 (amended): the implicit defaults applied by the core are
exactly: `checksDirectory` → `"tests"`, `outputPath` →
`"enumeration_results.json"`, `saveResults` → false, a spec's `enabled` →
false, and a spec's `parameters` → the empty mapping; the `tests` list
itself has no default — its absence is the distinct no-checks condition. -/
theorem c8_defaults (env : Env) :
    (∀ cfg : RunConfig, cfg.tests_directory = none →
      discoverTests env cfg = discoverTests env { cfg with tests_directory := some "tests" })
    ∧ (∀ (cfg : RunConfig) (rs : List (String × CheckResult)), cfg.output_file = none →
      saveResults env cfg rs
        = saveResults env { cfg with output_file := some "enumeration_results.json" } rs)
    ∧ (∀ (cfg : RunConfig) (rs : List (String × CheckResult)), cfg.save_results = none →
      persistedReport env cfg rs
        = persistedReport env { cfg with save_results := some false } rs)
    ∧ (∀ (dir : String) (s : CheckSpec), s.enabled = none →
      loadEntry env dir s = loadEntry env dir { s with enabled := some false }
      ∧ attemptedB env dir s = attemptedB env dir { s with enabled := some false })
    ∧ (∀ lc : LoadedCheck, lc.config.parameters = none →
      runTest env lc
        = runTest env { lc with config := { lc.config with parameters := some (JValue.obj []) } })
    ∧ (∀ cfg : RunConfig, cfg.tests = none → discoverTests env cfg = none) := by
  refine ⟨?_, ?_, ?_, ?_, ?_, ?_⟩
  · intro cfg hd
    have ht : testsDirectory cfg = testsDirectory { cfg with tests_directory := some "tests" } := by
      simp [testsDirectory, hd]
    unfold discoverTests
    rw [ht]
  · intro cfg rs h
    simp [saveResults, outputFile, h]
  · intro cfg rs h
    simp [persistedReport, saveFlag, h]
  · intro dir s h
    constructor
    · simp [loadEntry, isEnabled, h]
    · simp [attemptedB, isEnabled, h]
  · intro lc h
    simp [runTest, getParameters, h]
  · intro cfg h
    unfold discoverTests
    rw [h]

/-- Witness for C8 (amended): the `save_results` and `enabled` defaults at
concrete configurations. -/
theorem c8_defaults_witness :
    (cfgSaveAbsent.save_results = none
      ∧ persistedReport wEnv cfgSaveAbsent rsSample
          = persistedReport wEnv { cfgSaveAbsent with save_results := some false } rsSample)
    ∧ (specNoEnabled.enabled = none
      ∧ (loadEntry wEnv "tests" specNoEnabled
            = loadEntry wEnv "tests" { specNoEnabled with enabled := some false }
        ∧ attemptedB wEnv "tests" specNoEnabled
            = attemptedB wEnv "tests" { specNoEnabled with enabled := some false })) :=
  ⟨⟨rfl, (c8_defaults wEnv).2.2.1 cfgSaveAbsent rsSample rfl⟩,
    ⟨rfl, (c8_defaults wEnv).2.2.2.1 "tests" specNoEnabled rfl⟩⟩

/-- Claim C9: whenever the reporter persists the result set, deserializing
the persisted document yields back exactly the original result set — same
keys in the same order, same status, payload, errorMessage and timestamp. -/
theorem c9_roundtrip (env : Env) (cfg : RunConfig) (rs : List (String × CheckResult))
    (path : String) (doc : JValue)
    (hsave : persistedReport env cfg rs = some (path, doc)) :
    decodeResults doc = some rs := by
  have hdoc : doc = encodeResults rs := by
    unfold persistedReport saveResults at hsave
    by_cases hf : saveFlag cfg
    · rw [if_pos hf] at hsave
      by_cases hw : env.writeOk (outputFile cfg)
      · rw [if_pos hw] at hsave
        simp only [Option.some.injEq, Prod.mk.injEq] at hsave
        exact hsave.2.symm
      · rw [if_neg hw] at hsave
        cases hsave
    · rw [if_neg hf] at hsave
      cases hsave
  subst hdoc
  exact decodeResults_encodeResults rs

/-- Witness for C9: the sample result set persisted under `cfgSaveTrue`. -/
theorem c9_roundtrip_witness :
    persistedReport wEnv cfgSaveTrue rsSample = some ("out.json", encodeResults rsSample)
    ∧ decodeResults (encodeResults rsSample) = some rsSample :=
  ⟨rfl, c9_roundtrip wEnv cfgSaveTrue rsSample "out.json" (encodeResults rsSample) rfl⟩

/-- Claim C10: a spec whose `enabled` key is absent is treated exactly as
if `enabled` were false: the whole run is unchanged by writing the false
out explicitly, the spec is never loaded (its index never enters the load
log), and — with unique names — it never reaches the result set. -/
theorem c10_enabled_absent (env : Env) (cfg cfg' : RunConfig)
    (l1 l2 : List CheckSpec) (s : CheckSpec)
    (hs : s.enabled = none)
    (hcfg : cfg.tests = some (l1 ++ (s :: l2)))
    (hcfg' : cfg' = { cfg with tests := some (l1 ++ ({ s with enabled := some false } :: l2)) })
    (huniq : ∀ s' ∈ l1 ++ (s :: l2), s'.name = s.name → s' = s) :
    mainRun env (some cfg) = mainRun env (some cfg')
    ∧ l1.length ∉ loadLog env cfg
    ∧ s.name ∉ keys (discoveredTests env cfg)
    ∧ s.name ∉ keys ((mainRun env (some cfg)).results) := by
  subst hcfg'
  have hen : isEnabled s = false := by simp [isEnabled, hs]
  have hen' : isEnabled { s with enabled := some false } = false := by simp [isEnabled]
  have hdisc : discoverTests env cfg
      = discoverTests env
          { cfg with tests := some (l1 ++ ({ s with enabled := some false } :: l2)) } := by
    unfold discoverTests
    rw [hcfg]
    show some (((l1 ++ (s :: l2)).enum).foldl (discoverStep env (testsDirectory cfg)) ([], []))
      = some (((l1 ++ ({ s with enabled := some false } :: l2)).enum).foldl
          (discoverStep env (testsDirectory cfg)) ([], []))
    exact congrArg some
      (foldl_discover_congr_disabled env (testsDirectory cfg) l1 l2 s _ hen hen' 0 ([], []))
  have hidx : (l1 ++ (s :: l2))[l1.length]? = some s := by
    rw [List.getElem?_append_right (le_refl l1.length)]
    simp
  have hx := name_excluded env cfg (l1 ++ (s :: l2)) s hcfg
    (loadEntry_disabled env _ s hen) huniq
  refine ⟨?_, not_in_loadLog env cfg (l1 ++ (s :: l2)) l1.length s hcfg hidx hen, hx.1, hx.2⟩
  show mainRunCfg env cfg = mainRunCfg env
    { cfg with tests := some (l1 ++ ({ s with enabled := some false } :: l2)) }
  unfold mainRunCfg
  rw [← hdisc]
  rfl

/-- Witness for C10: a config whose second spec omits `enabled`, versus the
same config with `enabled` written out as false. -/
theorem c10_enabled_absent_witness :
    specNoEnabled.enabled = none
    ∧ (mainRun wEnv (some cfgNoEnabled) = mainRun wEnv (some cfgNoEnabledAsFalse)
      ∧ 1 ∉ loadLog wEnv cfgNoEnabled
      ∧ specNoEnabled.name ∉ keys (discoveredTests wEnv cfgNoEnabled)
      ∧ specNoEnabled.name ∉ keys ((mainRun wEnv (some cfgNoEnabled)).results)) := by
  refine ⟨rfl, c10_enabled_absent wEnv cfgNoEnabled cfgNoEnabledAsFalse [specA] []
    specNoEnabled rfl rfl rfl ?_⟩
  intro s' hs' hn
  rcases List.mem_cons.mp hs' with h | h
  · exact absurd (h ▸ hn) (by decide)
  · simpa using h

end Audit
